import Mathlib

/-!
Shallow embedding of the HyperGraphRAG core (text chunking and the
Neo4j-backed graph store) together with proofs about the spec claims.

Source files embedded:
  hypergraphrag/text_processor.py  (TextProcessor.chunk_text)
  hypergraphrag/models.py          (Hyperedge.__hash__)
  hypergraphrag/neo4j_manager.py   (Neo4jManager entity / hyperedge /
                                    chunk-link / read / traversal ops)

Modelling conventions:
  - Python str values are List Char (for sliced text) or String.
  - Python int is Int; slice indices follow Python clamping rules.
  - The md5 digest is modelled as the identity on its preimage string:
    every claim that touches chunk ids depends only on the digest being a
    deterministic function of its input, which the identity preserves.
  - Python hash of a tuple is modelled as the tuple itself, for the same
    reason (determinism and equality on equal inputs are all that is used).
  - The Neo4j store is a record of association lists: entities keyed by
    name, hyperedge nodes keyed by id, and PARTICIPATES_IN edges as
    (entity name, hyperedge id) pairs.  Cypher MERGE on a key is keyed
    upsert; MATCH on a missing node produces no rows (a no-op for writes,
    an empty list for reads).  The datetime() audit fields set by the
    queries (created_at / updated_at) are not modelled: no claim reads
    them.  Embedding vectors are lists of rationals; no modelled
    operation inspects their numeric contents.
-/

namespace HyperGraphRAG

/-! ## Chunker: TextProcessor.chunk_text -/

/-- Whitespace recognised by Python str.strip (ASCII subset). -/
def isPyWhitespace (c : Char) : Bool :=
  c = ' ' || c = '\t' || c = '\n' || c = '\x0d' || c = '\x0b' || c = '\x0c'

/-- Resolve a Python slice index against a sequence of length n:
negative indices count from the end and clamp at 0, positive ones clamp
at n. -/
def pyIndex (n : Nat) (i : Int) : Nat :=
  if i < 0 then ((n : Int) + i).toNat else min i.toNat n

/-- Python slice text[a:b] on a list of characters. -/
def pySlice (l : List Char) (a b : Int) : List Char :=
  (l.drop (pyIndex l.length a)).take (pyIndex l.length b - pyIndex l.length a)

/-- The md5 hex digest, modelled as the identity on the preimage string
(the digest is a deterministic function of its input, which is all any
claim uses). -/
def md5Hex (s : String) : String := s

/-- The chunk id computed in chunk_text: md5 of the f-string
interpolating chunk_text, start and end separated by underscores. -/
def chunkIdStr (content : List Char) (s e : Int) : String :=
  md5Hex (String.mk content ++ "_" ++ toString s ++ "_" ++ toString e)

/-- One emitted chunk dict: id, content, start_idx, end_idx, chunk_index. -/
structure RawChunk where
  id : String
  content : List Char
  startIdx : Int
  endIdx : Int
  chunkIndex : Nat
deriving DecidableEq, Repr

/-- The while loop of chunk_text, as fuel-indexed structural recursion.
Each fuel unit pays for one execution of the loop body; none means the
loop did not finish within the given fuel.  start and idx are the Python
locals start and chunk_id; the locals end and chunk_text of the body are
inlined (end is start + size, the piece is the slice text from start to
end, and the next start is end - overlap, written start + size -
overlap). -/
def chunkTextAux (text : List Char) (size overlap : Int) :
    Nat → Int → Nat → Option (List RawChunk)
  | 0, start, _ =>
      if start < (text.length : Int) then none else some []
  | fuel + 1, start, idx =>
      if start < (text.length : Int) then
        match chunkTextAux text size overlap fuel (start + size - overlap) (idx + 1) with
        | none => none
        | some cs =>
            if (pySlice text start (start + size)).any (fun c => !(isPyWhitespace c)) then
              some ({ id := chunkIdStr (pySlice text start (start + size)) start (start + size),
                      content := pySlice text start (start + size),
                      startIdx := start, endIdx := start + size, chunkIndex := idx } :: cs)
            else
              some cs
      else some []

/-- TextProcessor.chunk_text.  The loop advances start by size - overlap
per iteration, so when it terminates at all it terminates within
text.length + 1 body executions; none therefore means the Python loop
diverges. -/
def chunk_text (text : List Char) (size overlap : Int) : Option (List RawChunk) :=
  chunkTextAux text size overlap (text.length + 1) 0 0

/-- A chunk id is well formed when it is exactly the deterministic digest
of the content and both offsets. -/
def idWellFormed (c : RawChunk) : Prop :=
  c.id = chunkIdStr c.content c.startIdx c.endIdx

instance : DecidablePred idWellFormed := fun c =>
  inferInstanceAs (Decidable (c.id = _))

/-- Facts chunk_text guarantees for each emitted chunk: the id is the
digest of content and offsets, the content is the slice of the input at
those offsets, end_idx is start + size even past the end of the text,
the content has a non-whitespace character (stripped-empty chunks are
dropped), and start_idx is chunk_index times the window step size -
overlap (chunk_index counts scanned windows, dropped ones included). -/
def chunkFacts (text : List Char) (size overlap : Int) (c : RawChunk) : Prop :=
  c.id = chunkIdStr c.content c.startIdx c.endIdx ∧
  c.content = pySlice text c.startIdx c.endIdx ∧
  c.endIdx = c.startIdx + size ∧
  c.content.any (fun ch => !(isPyWhitespace ch)) = true ∧
  c.startIdx = (c.chunkIndex : Int) * (size - overlap)

instance (text : List Char) (size overlap : Int) :
    DecidablePred (chunkFacts text size overlap) := fun _ =>
  inferInstanceAs (Decidable (_ ∧ _ ∧ _ ∧ _ ∧ _))

/-- Strict document order on start offsets. -/
def startLt (a b : RawChunk) : Prop := a.startIdx < b.startIdx

instance : DecidableRel startLt := fun a b =>
  inferInstanceAs (Decidable (a.startIdx < b.startIdx))

/-- The claim C3 reading of index assignment: emitted chunks carry
chunk_index values 0, 1, 2, ... in emission order. -/
def emissionOrderIndexed (cs : List RawChunk) : Prop :=
  cs.map RawChunk.chunkIndex = List.range cs.length

instance : DecidablePred emissionOrderIndexed := fun cs =>
  inferInstanceAs (Decidable (cs.map RawChunk.chunkIndex = _))

/-- The chunks chunk_text emits for the text a-space-b with size 1 and
overlap 0: the middle window holds only a space and is dropped, but the
window counter still advances. -/
def spacedChunks : List RawChunk :=
  [{ id := "a_0_1", content := ['a'], startIdx := 0, endIdx := 1, chunkIndex := 0 },
   { id := "b_2_3", content := ['b'], startIdx := 2, endIdx := 3, chunkIndex := 2 }]

/-! ## Graph store: Neo4jManager

The property graph reachable through Neo4jManager holds Entity nodes
keyed by name, Hyperedge nodes keyed by id, and PARTICIPATES_IN edges
from entities to hyperedges.  Chunk nodes exist only for vector search
and no claim touches them, so they are not modelled. -/

/-- Embedding vectors; their numeric contents are stored and compared
but never computed with in the modelled operations. -/
abbrev Vec := List Rat

/-- Properties of an Entity node (audit timestamps omitted). -/
structure EntityRec where
  type : String
  description : Option String
  embedding : Option Vec
  chunkIds : Option (List String)
deriving DecidableEq, Repr

/-- Properties of a Hyperedge node: content plus the json.dumps form of
its metadata (audit timestamps omitted). -/
structure HyperedgeRec where
  content : String
  metadataJson : String
deriving DecidableEq, Repr

/-- The store state: association lists for the two node labels, keyed by
their unique key, plus the PARTICIPATES_IN edge set as (entity name,
hyperedge id) pairs. -/
structure GraphState where
  entities : List (String × EntityRec)
  hyperedges : List (String × HyperedgeRec)
  participates : List (String × String)
deriving DecidableEq, Repr

/-- The empty store. -/
def emptyGraph : GraphState := { entities := [], hyperedges := [], participates := [] }

/-- Look a key up in an association list (the node a MATCH or MERGE on
that key binds, when the keys are unique). -/
def lookupKey {α : Type} (l : List (String × α)) (k : String) : Option α :=
  match l with
  | [] => none
  | p :: t => if p.1 = k then some p.2 else lookupKey t k

/-- Keyed upsert: replace the value at an existing key in place,
otherwise append a fresh pair (MERGE followed by SET). -/
def updList {α : Type} (l : List (String × α)) (k : String) (v : α) :
    List (String × α) :=
  if l.any (fun p => p.1 = k) then
    l.map (fun p => if p.1 = k then (k, v) else p)
  else l ++ [(k, v)]

/-- COALESCE of the Cypher queries: the first non-null argument. -/
def coalesce {α : Type} (a b : Option α) : Option α :=
  match a with
  | some x => some x
  | none => b

/-- Neo4jManager.create_or_update_entity: MERGE on name; on create the
chunk_ids list starts empty; then type is overwritten, description is
COALESCE of the new value and the old one, and embedding is overwritten
unconditionally with the given vector, null included. -/
def create_or_update_entity (s : GraphState) (name type : String)
    (description : Option String) (vector : Option Vec) : GraphState :=
  let base : EntityRec :=
    match lookupKey s.entities name with
    | some e => e
    | none => { type := type, description := none, embedding := none, chunkIds := some [] }
  let merged : EntityRec :=
    { type := type,
      description := coalesce description base.description,
      embedding := vector,
      chunkIds := base.chunkIds }
  { s with entities := updList s.entities name merged }

/-- One row of the batch entity upsert: name, type, optional description
and optional vector, as produced by the list comprehension in
batch_create_entities. -/
structure EntityInput where
  name : String
  type : String
  description : Option String
  vector : Option Vec
deriving DecidableEq, Repr

/-- Neo4jManager.batch_create_entities: UNWIND processes the rows in
order, each row running the same MERGE and SET clauses as the single
upsert. -/
def batch_create_entities (s : GraphState) (entities : List EntityInput) :
    GraphState :=
  entities.foldl
    (fun st e => create_or_update_entity st e.name e.type e.description e.vector) s

/-- The CASE expression of link_chunk_to_entities: a null list becomes
the singleton, a list missing the chunk id gets it appended, a list
already holding it is unchanged. -/
def updChunkIds (chunkId : String) (ids : Option (List String)) :
    Option (List String) :=
  match ids with
  | none => some [chunkId]
  | some l => if chunkId ∈ l then some l else some (l ++ [chunkId])

/-- One iteration of link_chunk_to_entities: MATCH the entity by name (a
missing entity yields no row, hence no write) and SET its chunk_ids
through the CASE expression. -/
def linkOne (s : GraphState) (name chunkId : String) : GraphState :=
  match lookupKey s.entities name with
  | none => s
  | some e =>
      let merged : EntityRec := { e with chunkIds := updChunkIds chunkId e.chunkIds }
      { s with entities := updList s.entities name merged }

/-- Neo4jManager.link_chunk_to_entities: the per-entity update, run for
each name in order. -/
def link_chunk_to_entities (s : GraphState) (chunkId : String)
    (entityNames : List String) : GraphState :=
  entityNames.foldl (fun st n => linkOne st n chunkId) s

/-- One link row of the batch variant. -/
structure LinkInput where
  chunkId : String
  entityNames : List String
deriving DecidableEq, Repr

/-- Neo4jManager.batch_link_chunks_to_entities: the double UNWIND runs
the same per-entity CASE update for every (link, entity name) pair in
order. -/
def batch_link_chunks_to_entities (s : GraphState) (links : List LinkInput) :
    GraphState :=
  links.foldl (fun st l => link_chunk_to_entities st l.chunkId l.entityNames) s

/-- MERGE of one PARTICIPATES_IN edge, guarded by the two MATCH clauses:
both endpoints must exist, and an existing edge is not duplicated. -/
def mergeParticipates (s : GraphState) (name hyperedgeId : String) : GraphState :=
  match lookupKey s.entities name, lookupKey s.hyperedges hyperedgeId with
  | some _, some _ =>
      if (name, hyperedgeId) ∈ s.participates then s
      else { s with participates := s.participates ++ [(name, hyperedgeId)] }
  | _, _ => s

/-- Neo4jManager.create_hyperedge: MERGE the hyperedge node on id and
overwrite content and serialized metadata, then MERGE one
PARTICIPATES_IN edge per entity name in order. -/
def create_hyperedge (s : GraphState) (hyperedgeId : String)
    (entityNames : List String) (content : String) (metadataJson : String) :
    GraphState :=
  let s₁ : GraphState :=
    let node : HyperedgeRec := { content := content, metadataJson := metadataJson }
    { s with hyperedges := updList s.hyperedges hyperedgeId node }
  entityNames.foldl (fun st n => mergeParticipates st n hyperedgeId) s₁

/-- Hyperedge.__hash__ from models.py: the Python hash of the pair of
the sorted entity-name tuple and the content.  The hash function itself
is modelled as the identity on that pair; every claim uses only that it
is deterministic and agrees on equal pairs. -/
def hyperedgeHash (entityNames : List String) (content : String) :
    List String × String :=
  (entityNames.insertionSort (· ≤ ·), content)

/-- Modelled from the spec: the ingestion pipeline that computes the id
passed to create_hyperedge is not under src; per the spec a hyperedge
identity is determined by its entity set (order-independent) and
content, so the id is derived from the sorted entity names and the
content. -/
def hyperedgeIdOf (entityNames : List String) (content : String) : String :=
  String.intercalate "," (entityNames.insertionSort (· ≤ ·)) ++ "::" ++ content

/-- Neo4jManager.get_chunks_by_entity: MATCH the entity; a missing
entity means no row and an empty list; a null (or empty) chunk_ids
property also yields the empty list through Python truthiness. -/
def get_chunks_by_entity (s : GraphState) (name : String) : List String :=
  match lookupKey s.entities name with
  | none => []
  | some e =>
      match e.chunkIds with
      | none => []
      | some l => l

/-- One row of get_hyperedges_by_entity. -/
structure HyperedgeRow where
  hyperedgeId : String
  content : String
  metadataJson : String
deriving DecidableEq, Repr

/-- Neo4jManager.get_hyperedges_by_entity: rows for the hyperedges the
entity participates in, LIMIT applied; a missing entity matches no row. -/
def get_hyperedges_by_entity (s : GraphState) (name : String) (limit : Nat) :
    List HyperedgeRow :=
  match lookupKey s.entities name with
  | none => []
  | some _ =>
      ((s.participates.filter (fun p => p.1 = name)).filterMap
        (fun p => (lookupKey s.hyperedges p.2).map
          (fun h => { hyperedgeId := p.2, content := h.content,
                      metadataJson := h.metadataJson }))).take limit

/-- One row of get_entities_by_hyperedge. -/
structure EntityRow where
  name : String
  type : String
  description : Option String
deriving DecidableEq, Repr

/-- Neo4jManager.get_entities_by_hyperedge: rows for the entities on
PARTICIPATES_IN edges into the hyperedge; a missing hyperedge matches no
row. -/
def get_entities_by_hyperedge (s : GraphState) (hyperedgeId : String) :
    List EntityRow :=
  match lookupKey s.hyperedges hyperedgeId with
  | none => []
  | some _ =>
      (s.participates.filter (fun p => p.2 = hyperedgeId)).filterMap
        (fun p => (lookupKey s.entities p.1).map
          (fun e => { name := p.1, type := e.type, description := e.description }))

/-! ## Bounded traversal: Neo4jManager.find_related_entities

The Cypher text binds the variable-length PARTICIPATES_IN span as
star-1-dot-dot-dollar-max_depth, that is, with the query parameter
max_depth as the upper bound.  Neo4j accepts only integer literals in a
variable-length relationship bound, never a parameter, so the server
rejects this query at parse time: session.run raises a syntax error on
every call, whatever the store holds, and no (entity, distance) row is
ever produced. -/

/-- One result row the query declares (name, type, description and
length(path) as distance); no call ever yields one. -/
structure RelRow where
  name : String
  type : String
  description : Option String
  distance : Nat
deriving DecidableEq, Repr

/-- The failure the driver surfaces when the server rejects the query
text. -/
inductive QueryError where
  | syntaxError
deriving DecidableEq, Repr

/-- Neo4jManager.find_related_entities: the match pattern bounds the
variable-length PARTICIPATES_IN span with the parameter max_depth, which
Neo4j rejects at parse time, so the call raises on every input instead
of returning rows. -/
def find_related_entities (_s : GraphState) (_name : String) (_maxDepth : Nat) :
    Except QueryError (List RelRow) :=
  Except.error QueryError.syntaxError

/-- Modelled from the spec glossary: the entities one hop away from a,
those sharing some hyperedge with a. -/
def hopNeighbors (s : GraphState) (a : String) : List String :=
  (s.participates.filter (fun p => decide (p.1 = a))).flatMap
    (fun p => (s.participates.filter (fun q => decide (q.2 = p.2))).map (fun q => q.1))

/-- Modelled from the spec glossary: every entity reachable from start
within n hops, one hop crossing one shared hyperedge. -/
def withinHops (s : GraphState) (start : String) : Nat → List String
  | 0 => [start]
  | n + 1 =>
      ((withinHops s start n).flatMap (fun a => a :: hopNeighbors s a)).dedup

/-- A three-entity store in which A shares hyperedge h1 with B and B
shares hyperedge h2 with C, built through the embedded write operations. -/
def demoGraph : GraphState :=
  let s₁ := create_or_update_entity emptyGraph "A" "PERSON" none none
  let s₂ := create_or_update_entity s₁ "B" "PERSON" none none
  let s₃ := create_or_update_entity s₂ "C" "PERSON" none none
  let s₄ := create_hyperedge s₃ "h1" ["A", "B"] "f1" "\x7b\x7d"
  create_hyperedge s₄ "h2" ["B", "C"] "f2" "\x7b\x7d"

/-! ## Helper measures used in claim statements -/

/-- How many entries of an association list carry the given key. -/
def countKey {α : Type} (l : List (String × α)) (k : String) : Nat :=
  l.countP (fun p => p.1 = k)

/-- The description currently stored for a name, null when the entity is
absent. -/
def descriptionOf (s : GraphState) (name : String) : Option String :=
  (lookupKey s.entities name).bind EntityRec.description

/-- How many times a chunk id occurs in the chunk_ids list of an entity
(zero when the entity is absent or its list is null). -/
def chunkIdCount (s : GraphState) (name chunkId : String) : Nat :=
  (((lookupKey s.entities name).bind EntityRec.chunkIds).getD []).count chunkId

/-- The entity exists, its chunk_ids list is non-null and holds the
chunk id. -/
def hasChunkId (s : GraphState) (name chunkId : String) : Prop :=
  chunkId ∈ (((lookupKey s.entities name).bind EntityRec.chunkIds).getD [])

instance (s : GraphState) (n c : String) : Decidable (hasChunkId s n c) :=
  inferInstanceAs (Decidable (c ∈ _))

/-- What one link call guarantees for one of its entity names: when the
entity exists and held the chunk id at most once before, it holds it
exactly once afterwards. -/
def linkCountOk (s : GraphState) (chunkId : String) (names : List String)
    (n : String) : Prop :=
  (lookupKey s.entities n).isSome = true →
  chunkIdCount s n chunkId ≤ 1 →
  chunkIdCount (link_chunk_to_entities s chunkId names) n chunkId = 1

/-- The chunks chunk_text emits for the text ab with size 2 and
overlap 1. -/
def chunkListAB : List RawChunk :=
  [{ id := "ab_0_2", content := ['a', 'b'], startIdx := 0, endIdx := 2, chunkIndex := 0 },
   { id := "b_1_3", content := ['b'], startIdx := 1, endIdx := 3, chunkIndex := 1 }]

/-! ## Lemmas about the chunker -/

/-- When the window step is positive the loop finishes within any fuel
that covers the remaining text. -/
theorem chunkTextAux_isSome (text : List Char) (size overlap : Int)
    (h : overlap < size) :
    ∀ (fuel : Nat) (start : Int) (idx : Nat),
      (text.length : Int) ≤ start + fuel →
      (chunkTextAux text size overlap fuel start idx).isSome = true := by
  intro fuel
  induction fuel with
  | zero =>
      intro start idx hle
      have hns : ¬ start < (text.length : Int) := by push_cast at hle; omega
      simp [chunkTextAux, hns]
  | succ n ih =>
      intro start idx hle
      by_cases hs : start < (text.length : Int)
      · have hrec := ih (start + size - overlap) (idx + 1) (by push_cast at hle ⊢; omega)
        rcases Option.isSome_iff_exists.mp hrec with ⟨cs, hcs⟩
        simp only [chunkTextAux]
        rw [if_pos hs]
        split
        · rename_i heq
          rw [hcs] at heq
          cases heq
        · split <;> simp
      · simp [chunkTextAux, hs]

/-- chunk_text terminates whenever overlap < size. -/
theorem chunk_text_isSome (text : List Char) (size overlap : Int)
    (h : overlap < size) :
    (chunk_text text size overlap).isSome = true :=
  chunkTextAux_isSome text size overlap h (text.length + 1) 0 0 (by push_cast; omega)

/-- Everything the loop guarantees chunk by chunk, stated for a run
beginning at the given start offset and window counter. -/
theorem chunkTextAux_mem (text : List Char) (size overlap : Int) :
    ∀ (fuel : Nat) (start : Int) (idx : Nat) (cs : List RawChunk),
      chunkTextAux text size overlap fuel start idx = some cs →
      ∀ c ∈ cs,
        c.id = chunkIdStr c.content c.startIdx c.endIdx ∧
        c.content = pySlice text c.startIdx c.endIdx ∧
        c.endIdx = c.startIdx + size ∧
        c.content.any (fun ch => !(isPyWhitespace ch)) = true ∧
        c.startIdx = start + ((c.chunkIndex : Int) - idx) * (size - overlap) ∧
        idx ≤ c.chunkIndex := by
  intro fuel
  induction fuel with
  | zero =>
      intro start idx cs hcs c hc
      by_cases hs : start < (text.length : Int) <;>
        simp [chunkTextAux, hs] at hcs
      subst hcs
      simp at hc
  | succ n ih =>
      intro start idx cs hcs c hc
      by_cases hs : start < (text.length : Int)
      · simp only [chunkTextAux] at hcs
        rw [if_pos hs] at hcs
        split at hcs
        · cases hcs
        · rename_i cs' hrec
          split at hcs
          · rename_i hp
            injection hcs with hcs
            subst hcs
            rcases List.mem_cons.mp hc with hceq | hmem
            · subst hceq
              refine ⟨rfl, rfl, rfl, hp, ?_, le_refl _⟩
              push_cast
              ring
            · obtain ⟨h1, h2, h3, h4, h5, h6⟩ := ih _ _ _ hrec c hmem
              refine ⟨h1, h2, h3, h4, ?_, by omega⟩
              rw [h5]
              push_cast
              ring
          · injection hcs with hcs
            subst hcs
            obtain ⟨h1, h2, h3, h4, h5, h6⟩ := ih _ _ _ hrec c hc
            refine ⟨h1, h2, h3, h4, ?_, by omega⟩
            rw [h5]
            push_cast
            ring
      · simp only [chunkTextAux] at hcs
        rw [if_neg hs] at hcs
        injection hcs with hcs
        subst hcs
        simp at hc

/-- With a positive window step the emitted start offsets strictly
increase. -/
theorem chunkTextAux_chain (text : List Char) (size overlap : Int)
    (h : overlap < size) :
    ∀ (fuel : Nat) (start : Int) (idx : Nat) (cs : List RawChunk),
      chunkTextAux text size overlap fuel start idx = some cs →
      (∀ c ∈ cs, start ≤ c.startIdx) ∧ List.Chain' startLt cs := by
  intro fuel
  induction fuel with
  | zero =>
      intro start idx cs hcs
      by_cases hs : start < (text.length : Int) <;>
        simp [chunkTextAux, hs] at hcs
      subst hcs
      exact ⟨by simp, List.chain'_nil⟩
  | succ n ih =>
      intro start idx cs hcs
      have hstep : start < start + size - overlap := by omega
      by_cases hs : start < (text.length : Int)
      · simp only [chunkTextAux] at hcs
        rw [if_pos hs] at hcs
        split at hcs
        · cases hcs
        · rename_i cs' hrec
          obtain ⟨ihall, ihchain⟩ := ih _ _ _ hrec
          split at hcs
          · injection hcs with hcs
            subst hcs
            constructor
            · intro c hc
              rcases List.mem_cons.mp hc with hceq | hmem
              · subst hceq; exact le_refl _
              · exact le_of_lt (lt_of_lt_of_le hstep (ihall c hmem))
            · refine List.chain'_cons'.mpr ⟨?_, ihchain⟩
              intro y hy
              have hymem : y ∈ cs' := List.mem_of_mem_head? hy
              exact lt_of_lt_of_le hstep (ihall y hymem)
          · injection hcs with hcs
            subst hcs
            exact ⟨fun c hc => le_of_lt (lt_of_lt_of_le hstep (ihall c hc)), ihchain⟩
      · simp only [chunkTextAux] at hcs
        rw [if_neg hs] at hcs
        injection hcs with hcs
        subst hcs
        exact ⟨by simp, List.chain'_nil⟩

/-! ## Chunker claims -/

/-- C2: every chunk emitted by chunk_text carries the deterministic
digest of its content and offsets as id, and two runs on the same text,
size and overlap return the same id sequence. -/
theorem chunk_text_ids_deterministic (text : List Char) (size overlap : Int)
    (cs cs' : List RawChunk)
    (h : chunk_text text size overlap = some cs)
    (h' : chunk_text text size overlap = some cs') :
    List.Forall idWellFormed cs ∧ cs.map RawChunk.id = cs'.map RawChunk.id := by
  have hcc : cs = cs' := by
    rw [h] at h'
    exact Option.some.inj h'
  subst hcc
  refine ⟨?_, rfl⟩
  rw [List.forall_iff_forall_mem]
  intro c hc
  exact (chunkTextAux_mem text size overlap _ _ _ _ h c hc).1

/-- Witness for C2 on the text ab with size 2 and overlap 1. -/
theorem chunk_text_ids_deterministic_witness :
    List.Forall idWellFormed chunkListAB ∧
    chunkListAB.map RawChunk.id = chunkListAB.map RawChunk.id :=
  chunk_text_ids_deterministic "ab".toList 2 1 chunkListAB chunkListAB
    (by decide) (by decide)

/-- C3 counterexample: on the text a-space-b with size 1 and overlap 0
the all-space middle window is dropped yet still advances the counter,
so the emitted chunk_index values are 0 and 2 rather than 0 and 1, and
the largest index plus one is 3 while only 2 non-empty chunks exist. -/
theorem chunk_index_not_emission_order :
    chunk_text "a b".toList 1 0 = some spacedChunks ∧
    ¬ emissionOrderIndexed spacedChunks ∧
    ¬ ((spacedChunks.map RawChunk.chunkIndex).foldr max 0 + 1 = spacedChunks.length) := by
  decide

/-- C3 amended: empty-trimmed chunks are dropped, but chunk_index is
assigned by window scan position, advancing for dropped windows too:
each emitted chunk has some non-whitespace character and start_idx equal
to chunk_index times the window step, so the emitted index sequence can
skip values and the largest chunk_index plus one need not equal the
count of non-empty emitted chunks. -/
theorem chunk_text_window_indexed (text : List Char) (size overlap : Int)
    (cs : List RawChunk) (h : chunk_text text size overlap = some cs) :
    List.Forall (chunkFacts text size overlap) cs := by
  rw [List.forall_iff_forall_mem]
  intro c hc
  obtain ⟨h1, h2, h3, h4, h5, _⟩ := chunkTextAux_mem text size overlap _ _ _ _ h c hc
  refine ⟨h1, h2, h3, h4, ?_⟩
  rw [h5]
  push_cast
  ring

/-- Witness for the amended C3 on the text a-space-b with size 1 and
overlap 0. -/
theorem chunk_text_window_indexed_witness :
    List.Forall (chunkFacts "a b".toList 1 0) spacedChunks :=
  chunk_text_window_indexed "a b".toList 1 0 spacedChunks (by decide)

/-- C4: chunk_text performs no overlap validation at all; with overlap
equal to size the window start never advances, so on the text ab with
size 1 and overlap 1 the loop body runs forever: every fuel bound is
exhausted and no value (and no ConfigError) is ever produced. -/
theorem chunk_text_no_config_error_diverges :
    (∀ (fuel idx : Nat), chunkTextAux "ab".toList 1 1 fuel 0 idx = none) ∧
    chunk_text "ab".toList 1 1 = none := by
  have key : ∀ (fuel idx : Nat), chunkTextAux "ab".toList 1 1 fuel 0 idx = none := by
    intro fuel
    induction fuel with
    | zero => intro idx; simp [chunkTextAux]
    | succ n ih =>
        intro idx
        simp only [chunkTextAux]
        rw [if_pos (by decide)]
        have h0 : (0 : Int) + 1 - 1 = 0 := by norm_num
        rw [h0, ih (idx + 1)]
  exact ⟨key, key _ 0⟩

/-- C9: for 0 ≤ overlap < size the loop terminates on every text and
the emitted chunk sequence is finite with strictly increasing start
offsets. -/
theorem chunk_text_terminates_ordered (text : List Char) (size overlap : Int)
    (_h0 : 0 ≤ overlap) (h : overlap < size) :
    (chunk_text text size overlap).isSome = true ∧
    List.Chain' startLt ((chunk_text text size overlap).getD []) := by
  have hs := chunk_text_isSome text size overlap h
  refine ⟨hs, ?_⟩
  rcases Option.isSome_iff_exists.mp hs with ⟨cs, hcs⟩
  rw [hcs]
  exact (chunkTextAux_chain text size overlap h _ _ _ _ hcs).2

/-- Witness for C9 on the text abcd with size 2 and overlap 1. -/
theorem chunk_text_terminates_ordered_witness :
    (chunk_text "abcd".toList 2 1).isSome = true ∧
    List.Chain' startLt ((chunk_text "abcd".toList 2 1).getD []) :=
  chunk_text_terminates_ordered "abcd".toList 2 1 (by decide) (by decide)

/-! ## Lemmas about the association-list store -/

theorem lookup_map_upd {α : Type} (k : String) (v : α) :
    ∀ l : List (String × α), l.any (fun p => p.1 = k) = true →
      lookupKey (l.map (fun p => if p.1 = k then (k, v) else p)) k = some v := by
  intro l
  induction l with
  | nil => intro h; cases h
  | cons p t ih =>
      intro h
      by_cases hpk : p.1 = k
      · simp [lookupKey, hpk]
      · have ht : t.any (fun p => p.1 = k) = true := by
          simpa [hpk] using h
        simpa [lookupKey, hpk] using ih ht

theorem lookup_append_self {α : Type} (k : String) (v : α) :
    ∀ l : List (String × α),
      lookupKey (l ++ [(k, v)]) k = some v ∨ (lookupKey l k).isSome = true := by
  intro l
  induction l with
  | nil => left; simp [lookupKey]
  | cons p t ih =>
      by_cases hpk : p.1 = k
      · right; simp [lookupKey, hpk]
      · rcases ih with h | h
        · left; simp [lookupKey, hpk, h]
        · right; simp [lookupKey, hpk, h]

theorem lookup_map_upd_ne {α : Type} (k m : String) (v : α) (hne : m ≠ k) :
    ∀ l : List (String × α),
      lookupKey (l.map (fun p => if p.1 = k then (k, v) else p)) m = lookupKey l m := by
  intro l
  induction l with
  | nil => rfl
  | cons p t ih =>
      by_cases hpk : p.1 = k
      · have hkm : ¬ (k = m) := fun h => hne h.symm
        have hpm : ¬ (p.1 = m) := by rw [hpk]; exact hkm
        simp [lookupKey, hpk, hkm, hpm, ih]
      · by_cases hpm : p.1 = m
        · simp only [List.map_cons, lookupKey, if_neg hpk, if_pos hpm]
        · simp only [List.map_cons, lookupKey, if_neg hpk, if_neg hpm, ih]

theorem lookup_append_ne {α : Type} (k m : String) (v : α) (hne : m ≠ k) :
    ∀ l : List (String × α),
      lookupKey (l ++ [(k, v)]) m = lookupKey l m := by
  intro l
  induction l with
  | nil =>
      have hkm : ¬ (k = m) := fun h => hne h.symm
      simp [lookupKey, hkm]
  | cons p t ih =>
      by_cases hpm : p.1 = m
      · simp [lookupKey, hpm]
      · simp [lookupKey, hpm, ih]

theorem lookup_some_any {α : Type} (k : String) :
    ∀ l : List (String × α), (lookupKey l k).isSome = true →
      l.any (fun p => p.1 = k) = true := by
  intro l
  induction l with
  | nil => intro h; cases h
  | cons p t ih =>
      intro h
      by_cases hpk : p.1 = k
      · simp [hpk]
      · simp only [lookupKey, if_neg hpk] at h
        simp [hpk, ih h]

theorem lookupKey_updList_self {α : Type} (l : List (String × α)) (k : String) (v : α) :
    lookupKey (updList l k v) k = some v := by
  unfold updList
  by_cases h : l.any (fun p => p.1 = k) = true
  · rw [if_pos h]
    exact lookup_map_upd k v l h
  · rw [if_neg h]
    rcases lookup_append_self k v l with hgood | hsome
    · exact hgood
    · exact absurd (lookup_some_any k l hsome) h

theorem lookupKey_updList_ne {α : Type} (l : List (String × α)) (k m : String)
    (v : α) (hne : m ≠ k) :
    lookupKey (updList l k v) m = lookupKey l m := by
  unfold updList
  by_cases h : l.any (fun p => p.1 = k) = true
  · rw [if_pos h]
    exact lookup_map_upd_ne k m v hne l
  · rw [if_neg h]
    exact lookup_append_ne k m v hne l

theorem mapFst_map_upd {α : Type} (k : String) (v : α) (l : List (String × α)) :
    (l.map (fun p => if p.1 = k then (k, v) else p)).map Prod.fst = l.map Prod.fst := by
  induction l with
  | nil => rfl
  | cons p t ih =>
      by_cases hpk : p.1 = k
      · simp [hpk, ih]
      · simp [hpk, ih]

theorem mapFst_updList {α : Type} (l : List (String × α)) (k : String) (v : α) :
    (updList l k v).map Prod.fst =
      if l.any (fun p => p.1 = k) = true then l.map Prod.fst
      else l.map Prod.fst ++ [k] := by
  unfold updList
  by_cases h : l.any (fun p => p.1 = k) = true
  · rw [if_pos h, if_pos h]
    exact mapFst_map_upd k v l
  · rw [if_neg h, if_neg h]
    simp

theorem any_key_iff_mem_mapFst {α : Type} (k : String) (l : List (String × α)) :
    l.any (fun p => p.1 = k) = true ↔ k ∈ l.map Prod.fst := by
  induction l with
  | nil => simp
  | cons p t ih =>
      by_cases hpk : p.1 = k
      · simp [hpk]
      · have hkp : ¬ (k = p.1) := fun h => hpk h.symm
        simp [hpk, hkp, ih]

theorem nodup_updList {α : Type} (l : List (String × α)) (k : String) (v : α)
    (hnd : (l.map Prod.fst).Nodup) :
    ((updList l k v).map Prod.fst).Nodup := by
  rw [mapFst_updList]
  by_cases h : l.any (fun p => p.1 = k) = true
  · rw [if_pos h]; exact hnd
  · rw [if_neg h]
    have : k ∉ l.map Prod.fst := fun hm => h ((any_key_iff_mem_mapFst k l).mpr hm)
    simp [List.nodup_append, hnd, this]

theorem countKey_map_upd {α : Type} (k : String) (v : α) (l : List (String × α)) :
    countKey (l.map (fun p => if p.1 = k then (k, v) else p)) k = countKey l k := by
  induction l with
  | nil => rfl
  | cons p t ih =>
      by_cases hpk : p.1 = k
      · simp [countKey, List.countP_cons, hpk] at ih ⊢
        omega
      · simp [countKey, List.countP_cons, hpk] at ih ⊢
        exact ih

theorem countKey_append_single {α : Type} (k : String) (v : α) (l : List (String × α)) :
    countKey (l ++ [(k, v)]) k = countKey l k + 1 := by
  simp [countKey, List.countP_append, List.countP_cons]

theorem countKey_pos_of_any {α : Type} (k : String) (l : List (String × α))
    (h : l.any (fun p => p.1 = k) = true) :
    1 ≤ countKey l k := by
  induction l with
  | nil => cases h
  | cons p t ih =>
      by_cases hpk : p.1 = k
      · simp [countKey, List.countP_cons, hpk]
      · have ht : t.any (fun p => p.1 = k) = true := by simpa [hpk] using h
        have := ih ht
        simp only [countKey, List.countP_cons] at this ⊢
        omega

theorem countKey_eq_zero_of_not_any {α : Type} (k : String) :
    ∀ l : List (String × α), l.any (fun p => p.1 = k) = false →
      countKey l k = 0 := by
  intro l
  induction l with
  | nil => intro _; rfl
  | cons p t ih =>
      intro h
      simp only [List.any_cons, Bool.or_eq_false_iff] at h
      obtain ⟨h1, h2⟩ := h
      have hpk : ¬ p.1 = k := by simpa using h1
      have ht := ih h2
      simp only [countKey, List.countP_cons] at ht ⊢
      rw [ht]
      simp [hpk]

theorem countKey_updList_self {α : Type} (l : List (String × α)) (k : String) (v : α)
    (hle : countKey l k ≤ 1) :
    countKey (updList l k v) k = 1 := by
  unfold updList
  by_cases h : l.any (fun p => p.1 = k) = true
  · rw [if_pos h, countKey_map_upd]
    have := countKey_pos_of_any k l h
    omega
  · rw [if_neg h, countKey_append_single]
    have hz : countKey l k = 0 :=
      countKey_eq_zero_of_not_any k l (Bool.not_eq_true _ |>.mp h)
    omega

theorem countKey_le_one_of_nodup {α : Type} (l : List (String × α)) (k : String)
    (hnd : (l.map Prod.fst).Nodup) :
    countKey l k ≤ 1 := by
  induction l with
  | nil => simp [countKey]
  | cons p t ih =>
      simp only [List.map_cons, List.nodup_cons] at hnd
      obtain ⟨hnotin, hndt⟩ := hnd
      by_cases hpk : p.1 = k
      · have hz : countKey t k = 0 := by
          rw [countKey, List.countP_eq_zero]
          intro q hq
          simp only [decide_eq_true_eq]
          intro hqk
          exact hnotin (by
            rw [← hpk] at hqk
            exact hqk ▸ List.mem_map_of_mem Prod.fst hq)
        simp only [countKey, List.countP_cons] at *
        simp [hpk, hz]
      · have := ih hndt
        simp only [countKey, List.countP_cons] at this ⊢
        simp [hpk]
        omega

theorem entry_eq_of_lookup {α : Type} (l : List (String × α)) (k : String) (v : α)
    (hnd : (l.map Prod.fst).Nodup) (hl : lookupKey l k = some v) :
    ∀ p ∈ l, p.1 = k → p = (k, v) := by
  induction l with
  | nil => intro p hp; cases hp
  | cons q t ih =>
      simp only [List.map_cons, List.nodup_cons] at hnd
      obtain ⟨hnotin, hndt⟩ := hnd
      intro p hp hpk
      rcases List.mem_cons.mp hp with hpq | hpt
      · subst hpq
        simp only [lookupKey, if_pos hpk] at hl
        injection hl with hl
        exact Prod.ext hpk hl
      · by_cases hqk : q.1 = k
        · exact absurd (by rw [hqk, ← hpk]; exact List.mem_map_of_mem Prod.fst hpt) hnotin
        · simp only [lookupKey, if_neg hqk] at hl
          exact ih hndt hl p hpt hpk

theorem updList_self_eq {α : Type} (l : List (String × α)) (k : String) (v : α)
    (hnd : (l.map Prod.fst).Nodup) (hl : lookupKey l k = some v) :
    updList l k v = l := by
  have hany : l.any (fun p => p.1 = k) = true :=
    lookup_some_any k l (by rw [hl]; rfl)
  unfold updList
  rw [if_pos hany]
  have hcong : ∀ p ∈ l, (if p.1 = k then (k, v) else p) = id p := by
    intro p hp
    by_cases hpk : p.1 = k
    · rw [if_pos hpk, ← entry_eq_of_lookup l k v hnd hl p hp hpk]; rfl
    · rw [if_neg hpk]; rfl
  rw [List.map_congr_left hcong, List.map_id]

theorem length_updList {α : Type} (l : List (String × α)) (k : String) (v : α) :
    (updList l k v).length =
      if l.any (fun p => p.1 = k) = true then l.length else l.length + 1 := by
  unfold updList
  split <;> simp_all

/-! ## Lemmas about the store operations -/

theorem insertionSort_eq_of_perm (ns₁ ns₂ : List String) (h : ns₁.Perm ns₂) :
    ns₁.insertionSort (· ≤ ·) = ns₂.insertionSort (· ≤ ·) := by
  exact List.eq_of_perm_of_sorted
    ((List.perm_insertionSort _ ns₁).trans (h.trans (List.perm_insertionSort _ ns₂).symm))
    (List.sorted_insertionSort _ ns₁) (List.sorted_insertionSort _ ns₂)

theorem mergeParticipates_hyperedges (s : GraphState) (n hid : String) :
    (mergeParticipates s n hid).hyperedges = s.hyperedges := by
  unfold mergeParticipates
  split
  · split <;> rfl
  · rfl

theorem foldl_mergeParticipates_hyperedges (names : List String) :
    ∀ (s : GraphState) (hid : String),
      (names.foldl (fun st n => mergeParticipates st n hid) s).hyperedges =
        s.hyperedges := by
  induction names with
  | nil => intro s hid; rfl
  | cons n t ih =>
      intro s hid
      rw [List.foldl_cons, ih, mergeParticipates_hyperedges]

theorem create_hyperedge_hyperedges (s : GraphState) (hid : String)
    (names : List String) (c m : String) :
    (create_hyperedge s hid names c m).hyperedges =
      updList s.hyperedges hid { content := c, metadataJson := m } := by
  unfold create_hyperedge
  rw [foldl_mergeParticipates_hyperedges]

theorem upsert_lookup_present (s : GraphState) (name t : String) (d : Option String)
    (v : Option Vec) (e₀ : EntityRec) (h : lookupKey s.entities name = some e₀) :
    lookupKey (create_or_update_entity s name t d v).entities name =
      some { type := t, description := coalesce d e₀.description,
             embedding := v, chunkIds := e₀.chunkIds } := by
  unfold create_or_update_entity
  rw [h]
  exact lookupKey_updList_self _ _ _

theorem upsert_lookup_absent (s : GraphState) (name t : String) (d : Option String)
    (v : Option Vec) (h : lookupKey s.entities name = none) :
    lookupKey (create_or_update_entity s name t d v).entities name =
      some { type := t, description := coalesce d none,
             embedding := v, chunkIds := some [] } := by
  unfold create_or_update_entity
  rw [h]
  exact lookupKey_updList_self _ _ _

theorem upsert_countKey (s : GraphState) (name t : String) (d : Option String)
    (v : Option Vec) (hle : countKey s.entities name ≤ 1) :
    countKey (create_or_update_entity s name t d v).entities name = 1 :=
  countKey_updList_self _ _ _ hle

theorem upsert_nodup (s : GraphState) (name t : String) (d : Option String)
    (v : Option Vec) (hnd : (s.entities.map Prod.fst).Nodup) :
    ((create_or_update_entity s name t d v).entities.map Prod.fst).Nodup :=
  nodup_updList _ _ _ hnd

theorem coalesce_none_right {α : Type} (a : Option α) : coalesce a none = a := by
  cases a <;> rfl

/-! ## Store claims -/

/-- C1: the Hyperedge hash from models.py depends only on the sorted
entity-name tuple and the content, so permuting the names preserves it;
the spec-modelled hyperedge id agrees, and therefore inserting the same
fact under a permuted name list MERGEs onto the existing node: the
hyperedge node count does not grow. -/
theorem hyperedge_identity_perm_invariant (s : GraphState) (ns₁ ns₂ : List String)
    (content mjson : String) (h : ns₁.Perm ns₂) :
    hyperedgeHash ns₁ content = hyperedgeHash ns₂ content ∧
    hyperedgeIdOf ns₁ content = hyperedgeIdOf ns₂ content ∧
    (create_hyperedge (create_hyperedge s (hyperedgeIdOf ns₁ content) ns₁ content mjson)
        (hyperedgeIdOf ns₂ content) ns₂ content mjson).hyperedges.length =
      (create_hyperedge s (hyperedgeIdOf ns₁ content) ns₁ content mjson).hyperedges.length := by
  have hsort : ns₁.insertionSort (· ≤ ·) = ns₂.insertionSort (· ≤ ·) :=
    insertionSort_eq_of_perm ns₁ ns₂ h
  have hid : hyperedgeIdOf ns₂ content = hyperedgeIdOf ns₁ content := by
    unfold hyperedgeIdOf
    rw [hsort]
  refine ⟨?_, hid.symm, ?_⟩
  · unfold hyperedgeHash
    rw [hsort]
  · rw [hid]
    have hpresent :
        (create_hyperedge s (hyperedgeIdOf ns₁ content) ns₁ content mjson).hyperedges.any
          (fun p => p.1 = hyperedgeIdOf ns₁ content) = true := by
      apply lookup_some_any
      rw [create_hyperedge_hyperedges, lookupKey_updList_self]
      rfl
    rw [create_hyperedge_hyperedges, length_updList, if_pos hpresent]

/-- Witness for C1 on the name lists A B and B A with equal content. -/
theorem hyperedge_identity_perm_invariant_witness :
    hyperedgeHash ["A", "B"] "f" = hyperedgeHash ["B", "A"] "f" ∧
    hyperedgeIdOf ["A", "B"] "f" = hyperedgeIdOf ["B", "A"] "f" ∧
    (create_hyperedge (create_hyperedge emptyGraph (hyperedgeIdOf ["A", "B"] "f")
        ["A", "B"] "f" "m") (hyperedgeIdOf ["B", "A"] "f") ["B", "A"] "f" "m").hyperedges.length =
      (create_hyperedge emptyGraph (hyperedgeIdOf ["A", "B"] "f")
        ["A", "B"] "f" "m").hyperedges.length :=
  hyperedge_identity_perm_invariant emptyGraph ["A", "B"] ["B", "A"] "f" "m" (by decide)

/-- C5: upserting the same name twice leaves exactly one stored entity
under that name, and the stored description follows the non-null
override policy: a non-null new description replaces the old one while a
null new description keeps the existing value; the batch variant runs
the same merge per row. -/
theorem entity_upsert_merge_by_name (s : GraphState) (name t₁ t₂ : String)
    (d₁ d₂ : Option String) (v₁ v₂ : Option Vec)
    (hnd : (s.entities.map Prod.fst).Nodup) :
    countKey (create_or_update_entity (create_or_update_entity s name t₁ d₁ v₁)
        name t₂ d₂ v₂).entities name = 1 ∧
    (lookupKey (create_or_update_entity (create_or_update_entity s name t₁ d₁ v₁)
        name t₂ d₂ v₂).entities name).map EntityRec.description =
      some (coalesce d₂ (coalesce d₁ (descriptionOf s name))) ∧
    batch_create_entities s [⟨name, t₁, d₁, v₁⟩, ⟨name, t₂, d₂, v₂⟩] =
      create_or_update_entity (create_or_update_entity s name t₁ d₁ v₁) name t₂ d₂ v₂ := by
  refine ⟨?_, ?_, rfl⟩
  · apply upsert_countKey
    exact le_of_eq (upsert_countKey s name t₁ d₁ v₁ (countKey_le_one_of_nodup _ _ hnd))
  · cases h : lookupKey s.entities name with
    | some e₀ =>
        have h₁ := upsert_lookup_present s name t₁ d₁ v₁ e₀ h
        have h₂ := upsert_lookup_present _ name t₂ d₂ v₂ _ h₁
        rw [h₂]
        unfold descriptionOf
        rw [h]
        rfl
    | none =>
        have h₁ := upsert_lookup_absent s name t₁ d₁ v₁ h
        have h₂ := upsert_lookup_present _ name t₂ d₂ v₂ _ h₁
        rw [h₂]
        unfold descriptionOf
        rw [h]
        rfl

/-- Witness for C5: two upserts of the name A on the empty store, the
second with a null description. -/
theorem entity_upsert_merge_by_name_witness :
    countKey (create_or_update_entity (create_or_update_entity emptyGraph "A" "T" (some "d1") none)
        "A" "T2" none none).entities "A" = 1 ∧
    (lookupKey (create_or_update_entity (create_or_update_entity emptyGraph "A" "T" (some "d1") none)
        "A" "T2" none none).entities "A").map EntityRec.description =
      some (coalesce none (coalesce (some "d1") (descriptionOf emptyGraph "A"))) ∧
    batch_create_entities emptyGraph [⟨"A", "T", some "d1", none⟩, ⟨"A", "T2", none, none⟩] =
      create_or_update_entity (create_or_update_entity emptyGraph "A" "T" (some "d1") none)
        "A" "T2" none none :=
  entity_upsert_merge_by_name emptyGraph "A" "T" "T2" (some "d1") none none none (by decide)

/-- C10: the upsert overwrites the stored embedding with the given
vector unconditionally, so a null vector clears a previously stored
embedding while a null description keeps the stored one; the single-row
batch performs the identical update. -/
theorem entity_upsert_embedding_overwrite (s : GraphState) (name t : String)
    (d : Option String) (v : Option Vec) (e₀ : EntityRec)
    (h : lookupKey s.entities name = some e₀) :
    lookupKey (create_or_update_entity s name t d v).entities name =
      some { type := t, description := coalesce d e₀.description,
             embedding := v, chunkIds := e₀.chunkIds } ∧
    (lookupKey (create_or_update_entity s name t none none).entities name).map
        EntityRec.embedding = some none ∧
    (lookupKey (create_or_update_entity s name t none none).entities name).map
        EntityRec.description = some e₀.description ∧
    batch_create_entities s [⟨name, t, d, v⟩] = create_or_update_entity s name t d v := by
  refine ⟨upsert_lookup_present s name t d v e₀ h, ?_, ?_, rfl⟩
  · rw [upsert_lookup_present s name t none none e₀ h]
    rfl
  · rw [upsert_lookup_present s name t none none e₀ h]
    rfl

/-- Witness for C10: the entity A stores a description and an embedding,
then an upsert with null description and null vector clears only the
embedding. -/
theorem entity_upsert_embedding_overwrite_witness :
    lookupKey (create_or_update_entity
        (create_or_update_entity emptyGraph "A" "T" (some "d") (some [1]))
        "A" "T" none none).entities "A" =
      some { type := "T",
             description := coalesce none
               (EntityRec.description ⟨"T", some "d", some [1], some []⟩),
             embedding := none,
             chunkIds := EntityRec.chunkIds ⟨"T", some "d", some [1], some []⟩ } ∧
    (lookupKey (create_or_update_entity
        (create_or_update_entity emptyGraph "A" "T" (some "d") (some [1]))
        "A" "T" none none).entities "A").map EntityRec.embedding = some none ∧
    (lookupKey (create_or_update_entity
        (create_or_update_entity emptyGraph "A" "T" (some "d") (some [1]))
        "A" "T" none none).entities "A").map EntityRec.description =
      some (EntityRec.description ⟨"T", some "d", some [1], some []⟩) ∧
    batch_create_entities (create_or_update_entity emptyGraph "A" "T" (some "d") (some [1]))
        [⟨"A", "T", none, none⟩] =
      create_or_update_entity
        (create_or_update_entity emptyGraph "A" "T" (some "d") (some [1])) "A" "T" none none :=
  entity_upsert_embedding_overwrite
    (create_or_update_entity emptyGraph "A" "T" (some "d") (some [1]))
    "A" "T" none none ⟨"T", some "d", some [1], some []⟩ (by decide)

/-- C8: reading chunks or hyperedges of an absent entity and entities of
an absent hyperedge returns empty lists, never an error. -/
theorem reads_absent_empty (s : GraphState) (name hid : String) (limit : Nat)
    (h₁ : lookupKey s.entities name = none)
    (h₂ : lookupKey s.hyperedges hid = none) :
    get_chunks_by_entity s name = [] ∧
    get_hyperedges_by_entity s name limit = [] ∧
    get_entities_by_hyperedge s hid = [] := by
  refine ⟨?_, ?_, ?_⟩
  · unfold get_chunks_by_entity
    rw [h₁]
  · unfold get_hyperedges_by_entity
    rw [h₁]
  · unfold get_entities_by_hyperedge
    rw [h₂]

/-- Witness for C8 on the demo store and the absent names Z and z. -/
theorem reads_absent_empty_witness :
    get_chunks_by_entity demoGraph "Z" = [] ∧
    get_hyperedges_by_entity demoGraph "Z" 100 = [] ∧
    get_entities_by_hyperedge demoGraph "z" = [] :=
  reads_absent_empty demoGraph "Z" "z" 100 (by decide) (by decide)

/-! ## Lemmas about chunk-entity linking -/

theorem lookup_isSome_eq_any {α : Type} (k : String) :
    ∀ l : List (String × α), (lookupKey l k).isSome = l.any (fun p => p.1 = k) := by
  intro l
  induction l with
  | nil => rfl
  | cons p t ih =>
      by_cases hpk : p.1 = k
      · simp [lookupKey, hpk]
      · simp [lookupKey, hpk, ih]

theorem mem_updChunkIds (c : String) (ids : Option (List String)) :
    c ∈ (updChunkIds c ids).getD [] := by
  cases ids with
  | none => simp [updChunkIds]
  | some l => by_cases hc : c ∈ l <;> simp [updChunkIds, hc]

theorem updChunkIds_of_mem (c : String) (l : List String) (hc : c ∈ l) :
    updChunkIds c (some l) = some l := by
  simp [updChunkIds, hc]

theorem mem_updChunkIds_mono (c c' : String) (ids : Option (List String))
    (h : c ∈ ids.getD []) : c ∈ (updChunkIds c' ids).getD [] := by
  cases ids with
  | none => simp at h
  | some l =>
      by_cases hc : c' ∈ l
      · simpa [updChunkIds, hc] using h
      · simp only [updChunkIds, if_neg hc, Option.getD_some] at h ⊢
        exact List.mem_append_left _ h

theorem count_updChunkIds (c : String) (ids : Option (List String))
    (h : (ids.getD []).count c ≤ 1) :
    ((updChunkIds c ids).getD []).count c = 1 := by
  cases ids with
  | none => simp [updChunkIds]
  | some l =>
      simp only [Option.getD_some] at h
      by_cases hc : c ∈ l
      · have h1 : 0 < l.count c := List.count_pos_iff.mpr hc
        simp only [updChunkIds, if_pos hc, Option.getD_some]
        omega
      · have h0 : l.count c = 0 := List.count_eq_zero.mpr hc
        simp [updChunkIds, hc, List.count_append, h0]

theorem count_updChunkIds_keep (c c' : String) (ids : Option (List String))
    (h : (ids.getD []).count c = 1) :
    ((updChunkIds c' ids).getD []).count c = 1 := by
  cases ids with
  | none => simp at h
  | some l =>
      simp only [Option.getD_some] at h
      by_cases hc : c' ∈ l
      · simpa [updChunkIds, hc] using h
      · by_cases hcc : c = c'
        · subst hcc
          exact absurd (List.count_pos_iff.mp (by omega)) hc
        · simp [updChunkIds, hc, List.count_append, h, List.count_singleton', hcc]

theorem linkOne_absent (s : GraphState) (n c : String)
    (h : lookupKey s.entities n = none) : linkOne s n c = s := by
  unfold linkOne
  rw [h]

theorem linkOne_mapFst (s : GraphState) (n c : String) :
    (linkOne s n c).entities.map Prod.fst = s.entities.map Prod.fst := by
  unfold linkOne
  split
  · rfl
  · rename_i e h
    dsimp only
    rw [mapFst_updList,
      if_pos (lookup_some_any n s.entities (by rw [h]; rfl))]

theorem linkOne_lookup_ne (s : GraphState) (n c m : String) (hne : m ≠ n) :
    lookupKey (linkOne s n c).entities m = lookupKey s.entities m := by
  unfold linkOne
  split
  · rfl
  · dsimp only
    exact lookupKey_updList_ne _ _ _ _ hne

theorem linkOne_lookup_self (s : GraphState) (n c : String) (e : EntityRec)
    (h : lookupKey s.entities n = some e) :
    lookupKey (linkOne s n c).entities n =
      some { e with chunkIds := updChunkIds c e.chunkIds } := by
  unfold linkOne
  rw [h]
  exact lookupKey_updList_self _ _ _

theorem hasChunkId_elim (s : GraphState) (n c : String) (h : hasChunkId s n c) :
    ∃ e, lookupKey s.entities n = some e ∧ c ∈ e.chunkIds.getD [] := by
  unfold hasChunkId at h
  cases he : lookupKey s.entities n with
  | none => rw [he] at h; simp at h
  | some e =>
      rw [he] at h
      exact ⟨e, rfl, h⟩

theorem hasChunkId_intro (s : GraphState) (n c : String) (e : EntityRec)
    (he : lookupKey s.entities n = some e) (h : c ∈ e.chunkIds.getD []) :
    hasChunkId s n c := by
  unfold hasChunkId
  rw [he]
  exact h

theorem linkOne_hasChunkId (s : GraphState) (n c : String) (e : EntityRec)
    (h : lookupKey s.entities n = some e) :
    hasChunkId (linkOne s n c) n c :=
  hasChunkId_intro _ _ _ _ (linkOne_lookup_self s n c e h)
    (mem_updChunkIds c e.chunkIds)

theorem linkOne_hasChunkId_mono (s : GraphState) (n c' m c : String)
    (h : hasChunkId s m c) : hasChunkId (linkOne s n c') m c := by
  rcases hasChunkId_elim s m c h with ⟨e, he, hmem⟩
  by_cases hmn : m = n
  · subst hmn
    exact hasChunkId_intro _ _ _ _ (linkOne_lookup_self s m c' e he)
      (mem_updChunkIds_mono c c' e.chunkIds hmem)
  · refine hasChunkId_intro _ _ _ e ?_ hmem
    rw [linkOne_lookup_ne s n c' m hmn]
    exact he

theorem linkOne_id_of_hasChunkId (s : GraphState) (n c : String)
    (hnd : (s.entities.map Prod.fst).Nodup) (h : hasChunkId s n c) :
    linkOne s n c = s := by
  rcases hasChunkId_elim s n c h with ⟨e, he, hmem⟩
  cases hids : e.chunkIds with
  | none => rw [hids] at hmem; simp at hmem
  | some l =>
      rw [hids] at hmem
      simp only [Option.getD_some] at hmem
      unfold linkOne
      rw [he]
      dsimp only
      rw [hids, updChunkIds_of_mem c l hmem, ← hids]
      have heta : ({ e with chunkIds := e.chunkIds } : EntityRec) = e := rfl
      rw [heta, updList_self_eq s.entities n e hnd he]

theorem linkOne_count_keep (s : GraphState) (m c' n c : String)
    (h : chunkIdCount s n c = 1) :
    chunkIdCount (linkOne s m c') n c = 1 := by
  by_cases hnm : n = m
  · subst hnm
    cases he : lookupKey s.entities n with
    | none => rw [linkOne_absent s n c' he]; exact h
    | some e =>
        unfold chunkIdCount at h ⊢
        rw [he] at h
        rw [linkOne_lookup_self s n c' e he]
        exact count_updChunkIds_keep c c' e.chunkIds h
  · unfold chunkIdCount at h ⊢
    rw [linkOne_lookup_ne s m c' n hnm]
    exact h

theorem link_cons (s : GraphState) (c m : String) (t : List String) :
    link_chunk_to_entities s c (m :: t) =
      link_chunk_to_entities (linkOne s m c) c t := rfl

theorem link_fold_mapFst (c : String) :
    ∀ (names : List String) (s : GraphState),
      (link_chunk_to_entities s c names).entities.map Prod.fst =
        s.entities.map Prod.fst := by
  intro names
  induction names with
  | nil => intro s; rfl
  | cons m t ih => intro s; rw [link_cons, ih, linkOne_mapFst]

theorem link_fold_mono (c : String) :
    ∀ (names : List String) (s : GraphState) (m c' : String),
      hasChunkId s m c' → hasChunkId (link_chunk_to_entities s c names) m c' := by
  intro names
  induction names with
  | nil => intro s m c' h; exact h
  | cons x t ih =>
      intro s m c' h
      rw [link_cons]
      exact ih _ m c' (linkOne_hasChunkId_mono s x c m c' h)

theorem any_key_eq_any_mapFst {α : Type} (k : String) :
    ∀ l : List (String × α),
      l.any (fun p => p.1 = k) = (l.map Prod.fst).any (fun a => a = k) := by
  intro l
  induction l with
  | nil => rfl
  | cons p t ih => simp [ih]

theorem lookup_none_of_same_keys {α β : Type} (l₁ : List (String × α))
    (l₂ : List (String × β)) (k : String)
    (hkeys : l₁.map Prod.fst = l₂.map Prod.fst)
    (h : lookupKey l₁ k = none) : lookupKey l₂ k = none := by
  have h₁ : (lookupKey l₁ k).isSome = false := by rw [h]; rfl
  rw [lookup_isSome_eq_any] at h₁
  have h₂ : l₂.any (fun p => p.1 = k) = false := by
    rw [any_key_eq_any_mapFst, ← hkeys, ← any_key_eq_any_mapFst]
    exact h₁
  have h₃ : (lookupKey l₂ k).isSome = false := by
    rw [lookup_isSome_eq_any, h₂]
  cases ho : lookupKey l₂ k with
  | none => rfl
  | some v => rw [ho] at h₃; cases h₃

theorem link_fold_none (c : String) (names : List String) (s : GraphState)
    (m : String) (h : lookupKey s.entities m = none) :
    lookupKey (link_chunk_to_entities s c names).entities m = none :=
  lookup_none_of_same_keys _ _ m (link_fold_mapFst c names s).symm h

theorem link_fold_hasChunkId (c : String) :
    ∀ (names : List String) (s : GraphState), ∀ n ∈ names,
      hasChunkId (link_chunk_to_entities s c names) n c ∨
      lookupKey (link_chunk_to_entities s c names).entities n = none := by
  intro names
  induction names with
  | nil => intro s n hn; cases hn
  | cons m t ih =>
      intro s n hn
      rcases List.mem_cons.mp hn with hnm | hnt
      · subst hnm
        rw [link_cons]
        cases he : lookupKey s.entities n with
        | none =>
            right
            refine link_fold_none c t _ n ?_
            rw [linkOne_absent s n c he]
            exact he
        | some e =>
            left
            exact link_fold_mono c t _ n c (linkOne_hasChunkId s n c e he)
      · rw [link_cons]
        exact ih _ n hnt

theorem link_fold_id (c : String) :
    ∀ (names : List String) (s : GraphState),
      (s.entities.map Prod.fst).Nodup →
      (∀ n ∈ names, hasChunkId s n c ∨ lookupKey s.entities n = none) →
      link_chunk_to_entities s c names = s := by
  intro names
  induction names with
  | nil => intro s _ _; rfl
  | cons m t ih =>
      intro s hnd hall
      have hone : linkOne s m c = s := by
        rcases hall m (List.mem_cons_self m t) with h | h
        · exact linkOne_id_of_hasChunkId s m c hnd h
        · exact linkOne_absent s m c h
      rw [link_cons, hone]
      exact ih s hnd (fun n hn => hall n (List.mem_cons_of_mem m hn))

theorem link_fold_count_keep (c : String) :
    ∀ (names : List String) (s : GraphState) (n : String),
      chunkIdCount s n c = 1 →
      chunkIdCount (link_chunk_to_entities s c names) n c = 1 := by
  intro names
  induction names with
  | nil => intro s n h; exact h
  | cons m t ih =>
      intro s n h
      rw [link_cons]
      exact ih _ n (linkOne_count_keep s m c n c h)

theorem link_fold_count (c : String) :
    ∀ (names : List String) (s : GraphState), ∀ n ∈ names,
      (lookupKey s.entities n).isSome = true →
      chunkIdCount s n c ≤ 1 →
      chunkIdCount (link_chunk_to_entities s c names) n c = 1 := by
  intro names
  induction names with
  | nil => intro s n hn; cases hn
  | cons m t ih =>
      intro s n hn hsome hle
      rw [link_cons]
      by_cases hnm : n = m
      · subst hnm
        rcases Option.isSome_iff_exists.mp hsome with ⟨e, he⟩
        have h1 : chunkIdCount (linkOne s n c) n c = 1 := by
          unfold chunkIdCount at hle ⊢
          rw [he] at hle
          rw [linkOne_lookup_self s n c e he]
          exact count_updChunkIds c e.chunkIds hle
        exact link_fold_count_keep c t _ n h1
      · have hnt : n ∈ t := by
          rcases List.mem_cons.mp hn with h | h
          · exact absurd h hnm
          · exact h
        have hsome' : (lookupKey (linkOne s m c).entities n).isSome = true := by
          rw [linkOne_lookup_ne s m c n hnm]
          exact hsome
        have hle' : chunkIdCount (linkOne s m c) n c ≤ 1 := by
          unfold chunkIdCount at hle ⊢
          rw [linkOne_lookup_ne s m c n hnm]
          exact hle
        exact ih _ n hnt hsome' hle'

theorem batch_cons (s : GraphState) (l : LinkInput) (t : List LinkInput) :
    batch_link_chunks_to_entities s (l :: t) =
      batch_link_chunks_to_entities
        (link_chunk_to_entities s l.chunkId l.entityNames) t := rfl

theorem batch_mapFst :
    ∀ (ls : List LinkInput) (s : GraphState),
      (batch_link_chunks_to_entities s ls).entities.map Prod.fst =
        s.entities.map Prod.fst := by
  intro ls
  induction ls with
  | nil => intro s; rfl
  | cons l t ih => intro s; rw [batch_cons, ih, link_fold_mapFst]

theorem batch_mono (ls : List LinkInput) :
    ∀ (s : GraphState) (m c : String),
      hasChunkId s m c →
      hasChunkId (batch_link_chunks_to_entities s ls) m c := by
  induction ls with
  | nil => intro s m c h; exact h
  | cons l t ih =>
      intro s m c h
      rw [batch_cons]
      exact ih _ m c (link_fold_mono l.chunkId l.entityNames s m c h)

theorem batch_none (ls : List LinkInput) (s : GraphState) (m : String)
    (h : lookupKey s.entities m = none) :
    lookupKey (batch_link_chunks_to_entities s ls).entities m = none :=
  lookup_none_of_same_keys _ _ m (batch_mapFst ls s).symm h

theorem batch_hasChunkId (ls : List LinkInput) :
    ∀ (s : GraphState), ∀ l ∈ ls, ∀ n ∈ l.entityNames,
      hasChunkId (batch_link_chunks_to_entities s ls) n l.chunkId ∨
      lookupKey (batch_link_chunks_to_entities s ls).entities n = none := by
  induction ls with
  | nil => intro s l hl; cases hl
  | cons x t ih =>
      intro s l hl n hn
      rw [batch_cons]
      rcases List.mem_cons.mp hl with hlx | hlt
      · subst hlx
        rcases link_fold_hasChunkId l.chunkId l.entityNames s n hn with h | h
        · left
          exact batch_mono t _ n l.chunkId h
        · right
          exact batch_none t _ n h
      · exact ih _ l hlt n hn

theorem batch_id (ls : List LinkInput) :
    ∀ (s : GraphState),
      (s.entities.map Prod.fst).Nodup →
      (∀ l ∈ ls, ∀ n ∈ l.entityNames,
        hasChunkId s n l.chunkId ∨ lookupKey s.entities n = none) →
      batch_link_chunks_to_entities s ls = s := by
  induction ls with
  | nil => intro s _ _; rfl
  | cons x t ih =>
      intro s hnd hall
      have hx : link_chunk_to_entities s x.chunkId x.entityNames = s :=
        link_fold_id x.chunkId x.entityNames s hnd (hall x (List.mem_cons_self x t))
      rw [batch_cons, hx]
      exact ih s hnd (fun l hl n hn => hall l (List.mem_cons_of_mem x hl) n hn)

/-- C6: linking a chunk to entities is idempotent and retry-safe: a
second identical call, single or batch, leaves the state unchanged, the
single-link batch equals the single call, and one call leaves the chunk
id exactly once in the chunk_ids of each named existing entity that held
it at most once before. -/
theorem link_chunk_idempotent (s : GraphState) (chunkId : String)
    (names : List String) (links : List LinkInput)
    (hnd : (s.entities.map Prod.fst).Nodup) :
    link_chunk_to_entities (link_chunk_to_entities s chunkId names) chunkId names =
      link_chunk_to_entities s chunkId names ∧
    batch_link_chunks_to_entities (batch_link_chunks_to_entities s links) links =
      batch_link_chunks_to_entities s links ∧
    batch_link_chunks_to_entities s [⟨chunkId, names⟩] =
      link_chunk_to_entities s chunkId names ∧
    List.Forall (linkCountOk s chunkId names) names := by
  refine ⟨?_, ?_, rfl, ?_⟩
  · refine link_fold_id chunkId names _ ?_ ?_
    · rw [link_fold_mapFst]
      exact hnd
    · exact link_fold_hasChunkId chunkId names s
  · refine batch_id links _ ?_ ?_
    · rw [batch_mapFst]
      exact hnd
    · exact batch_hasChunkId links s
  · rw [List.forall_iff_forall_mem]
    intro n hn hsome hle
    exact link_fold_count chunkId names s n hn hsome hle

/-- Witness for C6 on the demo store, chunk c1 and the entities A and B. -/
theorem link_chunk_idempotent_witness :
    link_chunk_to_entities (link_chunk_to_entities demoGraph "c1" ["A", "B"]) "c1" ["A", "B"] =
      link_chunk_to_entities demoGraph "c1" ["A", "B"] ∧
    batch_link_chunks_to_entities
        (batch_link_chunks_to_entities demoGraph [⟨"c1", ["A", "B"]⟩]) [⟨"c1", ["A", "B"]⟩] =
      batch_link_chunks_to_entities demoGraph [⟨"c1", ["A", "B"]⟩] ∧
    batch_link_chunks_to_entities demoGraph [⟨"c1", ["A", "B"]⟩] =
      link_chunk_to_entities demoGraph "c1" ["A", "B"] ∧
    List.Forall (linkCountOk demoGraph "c1" ["A", "B"]) ["A", "B"] :=
  link_chunk_idempotent demoGraph "c1" ["A", "B"] [⟨"c1", ["A", "B"]⟩] (by decide)

/-! ## Traversal claim -/

/-- C7: find_related_entities never returns (entity, distance) rows.
Its query embeds the parameter max_depth as the variable-length bound,
which the server rejects with a syntax error, so every call raises
instead of traversing - the demo store included, where C is reachable
from the seed A within two hops as the claim describes. -/
theorem find_related_entities_always_errors :
    find_related_entities demoGraph "A" 2 = Except.error QueryError.syntaxError ∧
    "C" ∈ withinHops demoGraph "A" 2 ∧
    (∀ (s : GraphState) (name : String) (d : Nat),
      find_related_entities s name d = Except.error QueryError.syntaxError) :=
  ⟨rfl, by decide, fun _ _ _ => rfl⟩

end HyperGraphRAG
